import Mathlib

/-!
Shallow embedding of the seller-apis repository (src/seller.py and
src/market.py): inventory records, the stock and price transforms, the
price normalizer, the chunker and the paginated identifier resolvers,
together with theorems settling the specification claims.

Python conventions modelled here:
  * a function that can raise (int() on a non-numeric string, range() with
    zero step) is embedded as an Option / fallible result, `none` being the
    raised exception;
  * in-place mutation of the `offer_ids` list is embedded by state passing:
    the embedded function returns the final contents of the list alongside
    its ordinary return value;
  * `list.remove(x)` is `List.erase` (removes the first occurrence);
  * the `while True` pagination loops are embedded with explicit fuel; the
    remote server is a stream of pages indexed by call number.
-/

/-- One row of the supplier stock report (`watch_remnants` element).
Fields are the three columns the code reads: `Код` (code), `Количество`
(quantity) and `Цена` (price), all strings as in the spreadsheet. -/
structure Record where
  code : String
  quantity : String
  price : String
deriving DecidableEq, Repr

/-- Value of a digit string, most significant first. -/
def digitsToNat (cs : List Char) : Nat :=
  cs.foldl (fun a c => a * 10 + (c.toNat - 48)) 0

/-- Core of Python `int(str)`: a nonempty run of ASCII digits. -/
def pyIntCore (cs : List Char) : Option Nat :=
  if cs.isEmpty then none
  else if cs.all Char.isDigit then some (digitsToNat cs)
  else none

/-- Python `int(s)` on a string: optional sign followed by digits; `none`
models the raised `ValueError` on any other input (e.g. the empty string). -/
def pyInt (s : String) : Option Int :=
  match s.data with
  | '-' :: cs => (pyIntCore cs).map (fun n => -(n : Int))
  | '+' :: cs => (pyIntCore cs).map (fun n => (n : Int))
  | cs => (pyIntCore cs).map (fun n => (n : Int))

/-- Python `s.split(".")[0]`: the characters before the first `'.'`
(the whole string when there is no `'.'`). -/
def pySplitDotHead : List Char → List Char
  | [] => []
  | c :: cs => if c = '.' then [] else c :: pySplitDotHead cs

/-- Python `re.sub("[^0-9]", "", s)`: erase every character outside the
ASCII range `0`-`9`. -/
def reSubNonDigit (cs : List Char) : List Char :=
  cs.filter (fun c => decide ('0' ≤ c) && decide (c ≤ '9'))

/-- `seller.price_conversion`: `re.sub("[^0-9]", "", price.split(".")[0])`. -/
def price_conversion (price : String) : String :=
  ⟨reSubNonDigit (pySplitDotHead price.data)⟩

/-- The quantity rule shared by both `create_stocks` variants:
`">10"` gives 100, `"1"` gives 0, anything else goes through `int()`
(which may raise, hence `Option`). -/
def stockOfCount (count : String) : Option Int :=
  if count = ">10" then some 100
  else if count = "1" then some 0
  else pyInt count

namespace Seller

/-- One element of the Ozon stock payload: `{"offer_id": ..., "stock": ...}`. -/
structure StockItem where
  offer_id : String
  stock : Int
deriving DecidableEq, Repr

/-- One element of the Ozon price payload, fields in source order. -/
structure PriceItem where
  auto_action_enabled : String
  currency_code : String
  offer_id : String
  old_price : String
  price : String
deriving DecidableEq, Repr

/-- First loop of `seller.create_stocks`: walk the inventory records; a
record whose code is in `offer_ids` emits an item with the computed
quantity and removes that code from the list (`offer_ids.remove`).
Returns the emitted items and the final contents of `offer_ids`;
`none` models the `ValueError` from `int()` on an unparsable quantity. -/
def stocksLoop : List Record → List String → Option (List StockItem × List String)
  | [], offer_ids => some ([], offer_ids)
  | w :: ws, offer_ids =>
    if w.code ∈ offer_ids then
      match stockOfCount w.quantity with
      | none => none
      | some st =>
        (stocksLoop ws (offer_ids.erase w.code)).map
          (fun r => (⟨w.code, st⟩ :: r.1, r.2))
    else stocksLoop ws offer_ids

/-- `seller.create_stocks`: the matching loop followed by the second loop
appending a zero-stock item for every identifier still in `offer_ids`
(the second loop reads the list and does not modify it). Returns the
payload and the final contents of the `offer_ids` list. -/
def create_stocks (watch_remnants : List Record) (offer_ids : List String) :
    Option (List StockItem × List String) :=
  (stocksLoop watch_remnants offer_ids).map
    (fun r => (r.1 ++ r.2.map (fun i => ⟨i, 0⟩), r.2))

/-- `seller.create_prices`: a record whose code is in `offer_ids` emits a
price item with the normalized price; the loop never touches `offer_ids`,
so the final list contents are returned unchanged alongside the payload. -/
def create_prices : List Record → List String → List PriceItem × List String
  | [], offer_ids => ([], offer_ids)
  | w :: ws, offer_ids =>
    if w.code ∈ offer_ids then
      let r := create_prices ws offer_ids
      (⟨"UNKNOWN", "RUB", w.code, "0", price_conversion w.price⟩ :: r.1, r.2)
    else create_prices ws offer_ids

/-- One page returned by the Ozon product-list endpoint: `items`, `total`
and the `last_id` cursor. Only the `offer_id` of each item is used. -/
structure Product where
  offer_id : String
deriving DecidableEq, Repr

structure Page where
  items : List Product
  total : Nat
  last_id : String
deriving DecidableEq, Repr

/-- Items accumulated after consuming the first `n` pages of the stream. -/
def accItems (pages : Nat → Page) (n : Nat) : List Product :=
  ((List.range n).map (fun i => (pages i).items)).flatten

/-- Stop condition of the `while True` loop in `seller.get_offer_ids`:
after extending with page `k`, the page's reported `total` equals the
accumulated item count. -/
def stopsAt (pages : Nat → Page) (k : Nat) : Prop :=
  (pages k).total = (accItems pages (k + 1)).length

instance (pages : Nat → Page) (k : Nat) : Decidable (stopsAt pages k) := by
  unfold stopsAt; infer_instance

/-- The `while True` loop of `seller.get_offer_ids`, with explicit fuel:
fetch page `k`, extend the accumulator, stop when the page's `total`
equals the accumulated length. `none` is fuel exhaustion (the Python
loop still running). -/
def offerLoop (pages : Nat → Page) : Nat → Nat → List Product → Option (List Product)
  | 0, _, _ => none
  | fuel + 1, k, acc =>
    let acc' := acc ++ (pages k).items
    if (pages k).total = acc'.length then some acc'
    else offerLoop pages fuel (k + 1) acc'

/-- `seller.get_offer_ids`: run the pagination loop, then map each
accumulated product to its `offer_id`. -/
def get_offer_ids (pages : Nat → Page) (fuel : Nat) : Option (List String) :=
  (offerLoop pages fuel 0 []).map (List.map Product.offer_id)

/-- `seller.upload_stocks`, return value only: resolve identifiers, build
the stock payload, and return the non-zero-stock sublist together with the
whole payload. (The network pushes in between do not affect the value.) -/
def upload_stocks (watch_remnants : List Record) (pages : Nat → Page) (fuel : Nat) :
    Option (List StockItem × List StockItem) :=
  (get_offer_ids pages fuel).bind fun offer_ids =>
    (create_stocks watch_remnants offer_ids).map fun r =>
      (r.1.filter (fun s => s.stock != 0), r.1)

end Seller

/-- `seller.divide` body, fueled: each step takes `lst[i:i+n]` and advances
by `n`; structural fuel makes the generator's finite run explicit (fuel
equal to the list length always suffices when `0 < n`). -/
def divideFuel : Nat → List α → Nat → List (List α)
  | 0, _, _ => []
  | _, [], _ => []
  | fuel + 1, l, n => l.take n :: divideFuel fuel (l.drop n) n

/-- `seller.divide(lst, n)` for an arbitrary integer `n`, following
Python `range(0, len(lst), n)`: `n = 0` raises `ValueError` (`none`);
`n < 0` gives an empty range, hence no chunks at all; `n > 0` yields the
consecutive slices `lst[i:i+n]`. -/
def divide (lst : List α) (n : Int) : Option (List (List α)) :=
  if n = 0 then none
  else if n < 0 then some []
  else some (divideFuel lst.length lst n.toNat)

namespace Market

/-- One `items` entry of a Yandex stock payload element. -/
structure StockEntry where
  count : Int
  type : String
  updatedAt : String
deriving DecidableEq, Repr

instance : Inhabited StockEntry := ⟨⟨0, "", ""⟩⟩

/-- One element of the Yandex stock payload:
`{"sku": ..., "warehouseId": ..., "items": [...]}`. -/
structure StockItem where
  sku : String
  warehouseId : String
  items : List StockEntry
deriving DecidableEq, Repr

/-- The price object of a Yandex price payload element. -/
structure PriceValue where
  value : Int
  currencyId : String
deriving DecidableEq, Repr

/-- One element of the Yandex price payload: `{"id": ..., "price": {...}}`. -/
structure PriceItem where
  id : String
  price : PriceValue
deriving DecidableEq, Repr

/-- First loop of `market.create_stocks`: same matching and quantity rule
as the Ozon variant, but the emitted item carries the warehouse id and a
singleton `items` list with the timestamp `date`. -/
def stocksLoop (warehouse_id date : String) :
    List Record → List String → Option (List StockItem × List String)
  | [], offer_ids => some ([], offer_ids)
  | w :: ws, offer_ids =>
    if w.code ∈ offer_ids then
      match stockOfCount w.quantity with
      | none => none
      | some st =>
        (stocksLoop warehouse_id date ws (offer_ids.erase w.code)).map
          (fun r => (⟨w.code, warehouse_id, [⟨st, "FIT", date⟩]⟩ :: r.1, r.2))
    else stocksLoop warehouse_id date ws offer_ids

/-- `market.create_stocks`: the matching loop followed by the zero-count
items for the identifiers still in `offer_ids`. The timestamp `date`
(computed in the source from `datetime.utcnow()`) is a parameter. -/
def create_stocks (watch_remnants : List Record) (offer_ids : List String)
    (warehouse_id date : String) : Option (List StockItem × List String) :=
  (stocksLoop warehouse_id date watch_remnants offer_ids).map
    (fun r => (r.1 ++ r.2.map (fun i => ⟨i, warehouse_id, [⟨0, "FIT", date⟩]⟩), r.2))

/-- `market.create_prices`: a record whose code is in `offer_ids` emits a
price item whose value is `int(price_conversion(...))` — `none` models the
`ValueError` when the normalized price has no digits. `offer_ids` is
never modified; its final contents are returned alongside the payload. -/
def create_prices : List Record → List String → Option (List PriceItem × List String)
  | [], offer_ids => some ([], offer_ids)
  | w :: ws, offer_ids =>
    if w.code ∈ offer_ids then
      match pyInt (price_conversion w.price) with
      | none => none
      | some v =>
        (create_prices ws offer_ids).map
          (fun r => (⟨w.code, ⟨v, "RUR"⟩⟩ :: r.1, r.2))
    else create_prices ws offer_ids

/-- The `offer` object of one Yandex offer-mapping entry. -/
structure Offer where
  shopSku : String
deriving DecidableEq, Repr

structure Entry where
  offer : Offer
deriving DecidableEq, Repr

structure Paging where
  nextPageToken : String
deriving DecidableEq, Repr

/-- One page returned by the Yandex offer-mapping endpoint. -/
structure Page where
  offerMappingEntries : List Entry
  paging : Paging
deriving DecidableEq, Repr

/-- Entries accumulated after consuming the first `n` pages of the stream. -/
def accEntries (pages : Nat → Page) (n : Nat) : List Entry :=
  ((List.range n).map (fun i => (pages i).offerMappingEntries)).flatten

/-- Stop condition of the loop in `market.get_offer_ids`: page `k` returns
an empty `nextPageToken` (Python falsy). -/
def stopsAt (pages : Nat → Page) (k : Nat) : Prop :=
  (pages k).paging.nextPageToken = ""

instance (pages : Nat → Page) (k : Nat) : Decidable (stopsAt pages k) := by
  unfold stopsAt; infer_instance

/-- The `while True` loop of `market.get_offer_ids`, with explicit fuel:
fetch page `k`, extend the accumulator, stop when the page's
`nextPageToken` is empty. -/
def offerLoop (pages : Nat → Page) : Nat → Nat → List Entry → Option (List Entry)
  | 0, _, _ => none
  | fuel + 1, k, acc =>
    let acc' := acc ++ (pages k).offerMappingEntries
    if (pages k).paging.nextPageToken = "" then some acc'
    else offerLoop pages fuel (k + 1) acc'

/-- `market.get_offer_ids`: run the pagination loop, then map each entry
to `entry.offer.shopSku`. -/
def get_offer_ids (pages : Nat → Page) (fuel : Nat) : Option (List String) :=
  (offerLoop pages fuel 0 []).map (List.map (fun e => e.offer.shopSku))

/-- `market.upload_stocks`, return value only: resolve identifiers, build
the stock payload, and return the sublist whose first `items` entry has a
non-zero count together with the whole payload. -/
def upload_stocks (watch_remnants : List Record) (pages : Nat → Page) (fuel : Nat)
    (warehouse_id date : String) : Option (List StockItem × List StockItem) :=
  (get_offer_ids pages fuel).bind fun offer_ids =>
    (create_stocks watch_remnants offer_ids warehouse_id date).map fun r =>
      (r.1.filter (fun s => s.items.headI.count != 0), r.1)

end Market

/-- Specification-side price normalizer, written from the spec's words:
take the substring before the first `'.'` and keep only the digits. -/
def normalizeSpec (s : String) : String :=
  ⟨(s.data.takeWhile (fun c => c != '.')).filter Char.isDigit⟩

/-- Two-page Ozon stream from the spec example: page 0 brings items `x, y`
(total 3, cursor `"p1"`), every later page brings `z` (total 3, cursor
empty); the count reaches the total after page 1. -/
def pagesSellerW : Nat → Seller.Page := fun n =>
  if n = 0 then ⟨[⟨"x"⟩, ⟨"y"⟩], 3, "p1"⟩ else ⟨[⟨"z"⟩], 3, ""⟩

/-- Two-page Yandex stream: page 0 brings `x, y` with a next-page token,
every later page brings `z` with an empty token. -/
def pagesMarketW : Nat → Market.Page := fun n =>
  if n = 0 then ⟨[⟨⟨"x"⟩⟩, ⟨⟨"y"⟩⟩], ⟨"p1"⟩⟩ else ⟨[⟨⟨"z"⟩⟩], ⟨""⟩⟩

/-- One-page Ozon stream: a single item `A`, total 1, empty cursor. -/
def pagesSellerOne : Nat → Seller.Page := fun _ => ⟨[⟨"A"⟩], 1, ""⟩

/-- One-page Yandex stream: a single entry `A`, empty next-page token. -/
def pagesMarketOne : Nat → Market.Page := fun _ => ⟨[⟨⟨"A"⟩⟩], ⟨""⟩⟩

/-- Structural invariants of the matching loop of `seller.create_stocks`:
the emitted codes plus the surviving identifiers are a permutation of the
original list, the survivors form a sublist (original order), the emitted
codes follow inventory order, lengths add up, and an identifier l­eaves the
list exactly when some inventory record carries its code. -/
theorem Seller.stocksLoop_spec_seller (w : List Record) :
    ∀ (ids : List String) (stocks : List Seller.StockItem) (rest : List String),
      Seller.stocksLoop w ids = some (stocks, rest) →
      (stocks.map Seller.StockItem.offer_id ++ rest).Perm ids ∧
      rest.Sublist ids ∧
      (stocks.map Seller.StockItem.offer_id).Sublist (w.map Record.code) ∧
      stocks.length + rest.length = ids.length ∧
      (∀ x ∈ ids, x ∉ rest → x ∈ w.map Record.code) ∧
      (∀ x ∈ ids, x ∉ w.map Record.code → x ∈ rest) := by
  induction w with
  | nil =>
    intro ids stocks rest h
    simp only [Seller.stocksLoop, Option.some.injEq, Prod.mk.injEq] at h
    obtain ⟨h1, h2⟩ := h
    subst h1; subst h2
    refine ⟨by simp, List.Sublist.refl _, by simp, by simp, ?_, ?_⟩
    · intro x hx hnx; exact absurd hx hnx
    · intro x hx _; exact hx
  | cons r ws ih =>
    intro ids stocks rest h
    simp only [Seller.stocksLoop] at h
    by_cases hc : r.code ∈ ids
    · rw [if_pos hc] at h
      cases hq : stockOfCount r.quantity with
      | none => rw [hq] at h; simp at h
      | some st =>
        rw [hq] at h
        cases hrec : Seller.stocksLoop ws (ids.erase r.code) with
        | none => rw [hrec] at h; simp at h
        | some p =>
          obtain ⟨items, rest2⟩ := p
          rw [hrec] at h
          simp only [Option.map_some', Option.some.injEq, Prod.mk.injEq] at h
          obtain ⟨h1, h2⟩ := h
          subst h1; subst h2
          obtain ⟨ihp, ihsub, ihcodes, ihlen, ihrem, ihkeep⟩ :=
            ih (ids.erase r.code) items rest2 hrec
          refine ⟨?_, ?_, ?_, ?_, ?_, ?_⟩
          · simpa using (ihp.cons r.code).trans (List.perm_cons_erase hc).symm
          · exact ihsub.trans (List.erase_sublist _ _)
          · simpa using List.Sublist.cons₂ r.code ihcodes
          · have hlen := List.length_erase_of_mem hc
            have hpos : 0 < ids.length := List.length_pos.mpr (by rintro rfl; simp at hc)
            simp only [List.length_cons]
            omega
          · intro x hx hnx
            by_cases hxe : x = r.code
            · subst hxe; simp
            · have hxm : x ∈ ids.erase r.code := (List.mem_erase_of_ne hxe).mpr hx
              have := ihrem x hxm hnx
              simp at this ⊢
              exact Or.inr this
          · intro x hx hnx
            have hxe : x ≠ r.code := by
              rintro rfl; exact hnx (by simp)
            have hxm : x ∈ ids.erase r.code := (List.mem_erase_of_ne hxe).mpr hx
            exact ihkeep x hxm (fun hm => hnx (by simp [hm]))
    · rw [if_neg hc] at h
      obtain ⟨ihp, ihsub, ihcodes, ihlen, ihrem, ihkeep⟩ := ih ids stocks rest h
      refine ⟨ihp, ihsub, ihcodes.trans (by simp), ihlen, ?_, ?_⟩
      · intro x hx hnx
        have := ihrem x hx hnx
        simp at this ⊢
        exact Or.inr this
      · intro x hx hnx
        exact ihkeep x hx (fun hm => hnx (by simp [hm]))

/-- Market variant of `Seller.stocksLoop_spec_seller`: same invariants for the
matching loop of `market.create_stocks` (codes read through `sku`). -/
theorem Market.stocksLoop_spec_market (wh date : String) (w : List Record) :
    ∀ (ids : List String) (stocks : List Market.StockItem) (rest : List String),
      Market.stocksLoop wh date w ids = some (stocks, rest) →
      (stocks.map Market.StockItem.sku ++ rest).Perm ids ∧
      rest.Sublist ids ∧
      (stocks.map Market.StockItem.sku).Sublist (w.map Record.code) ∧
      stocks.length + rest.length = ids.length ∧
      (∀ x ∈ ids, x ∉ rest → x ∈ w.map Record.code) ∧
      (∀ x ∈ ids, x ∉ w.map Record.code → x ∈ rest) := by
  induction w with
  | nil =>
    intro ids stocks rest h
    simp only [Market.stocksLoop, Option.some.injEq, Prod.mk.injEq] at h
    obtain ⟨h1, h2⟩ := h
    subst h1; subst h2
    refine ⟨by simp, List.Sublist.refl _, by simp, by simp, ?_, ?_⟩
    · intro x hx hnx; exact absurd hx hnx
    · intro x hx _; exact hx
  | cons r ws ih =>
    intro ids stocks rest h
    simp only [Market.stocksLoop] at h
    by_cases hc : r.code ∈ ids
    · rw [if_pos hc] at h
      cases hq : stockOfCount r.quantity with
      | none => rw [hq] at h; simp at h
      | some st =>
        rw [hq] at h
        cases hrec : Market.stocksLoop wh date ws (ids.erase r.code) with
        | none => rw [hrec] at h; simp at h
        | some p =>
          obtain ⟨items, rest2⟩ := p
          rw [hrec] at h
          simp only [Option.map_some', Option.some.injEq, Prod.mk.injEq] at h
          obtain ⟨h1, h2⟩ := h
          subst h1; subst h2
          obtain ⟨ihp, ihsub, ihcodes, ihlen, ihrem, ihkeep⟩ :=
            ih (ids.erase r.code) items rest2 hrec
          refine ⟨?_, ?_, ?_, ?_, ?_, ?_⟩
          · simpa using (ihp.cons r.code).trans (List.perm_cons_erase hc).symm
          · exact ihsub.trans (List.erase_sublist _ _)
          · simpa using List.Sublist.cons₂ r.code ihcodes
          · have hlen := List.length_erase_of_mem hc
            have hpos : 0 < ids.length := List.length_pos.mpr (by rintro rfl; simp at hc)
            simp only [List.length_cons]
            omega
          · intro x hx hnx
            by_cases hxe : x = r.code
            · subst hxe; simp
            · have hxm : x ∈ ids.erase r.code := (List.mem_erase_of_ne hxe).mpr hx
              have := ihrem x hxm hnx
              simp at this ⊢
              exact Or.inr this
          · intro x hx hnx
            have hxe : x ≠ r.code := by
              rintro rfl; exact hnx (by simp)
            have hxm : x ∈ ids.erase r.code := (List.mem_erase_of_ne hxe).mpr hx
            exact ihkeep x hxm (fun hm => hnx (by simp [hm]))
    · rw [if_neg hc] at h
      obtain ⟨ihp, ihsub, ihcodes, ihlen, ihrem, ihkeep⟩ := ih ids stocks rest h
      refine ⟨ihp, ihsub, ihcodes.trans (by simp), ihlen, ?_, ?_⟩
      · intro x hx hnx
        have := ihrem x hx hnx
        simp at this ⊢
        exact Or.inr this
      · intro x hx hnx
        exact ihkeep x hx (fun hm => hnx (by simp [hm]))

/-- `seller.create_stocks` decomposed: the payload is the matching loop's
output followed by a zero-stock item per surviving identifier, and the
final list contents are the loop's survivors. -/
theorem Seller.create_stocks_cases_seller (w : List Record) (ids : List String)
    (S : List Seller.StockItem) (rest : List String)
    (h : Seller.create_stocks w ids = some (S, rest)) :
    ∃ ms, Seller.stocksLoop w ids = some (ms, rest) ∧
      S = ms ++ rest.map (fun i => ⟨i, 0⟩) := by
  unfold Seller.create_stocks at h
  cases hrec : Seller.stocksLoop w ids with
  | none => rw [hrec] at h; simp at h
  | some p =>
    obtain ⟨ms, rest2⟩ := p
    rw [hrec] at h
    simp only [Option.map_some', Option.some.injEq, Prod.mk.injEq] at h
    obtain ⟨h1, h2⟩ := h
    subst h2
    exact ⟨ms, rfl, h1.symm⟩

/-- `market.create_stocks` decomposed, as in `Seller.create_stocks_cases_seller`. -/
theorem Market.create_stocks_cases_market (w : List Record) (ids : List String)
    (wh date : String) (S : List Market.StockItem) (rest : List String)
    (h : Market.create_stocks w ids wh date = some (S, rest)) :
    ∃ ms, Market.stocksLoop wh date w ids = some (ms, rest) ∧
      S = ms ++ rest.map (fun i => ⟨i, wh, [⟨0, "FIT", date⟩]⟩) := by
  unfold Market.create_stocks at h
  cases hrec : Market.stocksLoop wh date w ids with
  | none => rw [hrec] at h; simp at h
  | some p =>
    obtain ⟨ms, rest2⟩ := p
    rw [hrec] at h
    simp only [Option.map_some', Option.some.injEq, Prod.mk.injEq] at h
    obtain ⟨h1, h2⟩ := h
    subst h2
    exact ⟨ms, rfl, h1.symm⟩

/-- The chunker on an empty list yields no chunks, whatever the fuel. -/
theorem divideFuel_nil {α} (f n : Nat) : divideFuel f ([] : List α) n = [] := by
  cases f <;> rfl

/-- Concatenating the chunks reconstructs the list, given positive chunk
size and enough fuel (the list length always suffices). -/
theorem divideFuel_flatten {α} (n : Nat) (hn : 0 < n) :
    ∀ (f : Nat) (l : List α), l.length ≤ f → (divideFuel f l n).flatten = l := by
  intro f
  induction f with
  | zero =>
    intro l hl
    have : l = [] := List.eq_nil_of_length_eq_zero (Nat.le_zero.mp hl)
    subst this
    simp [divideFuel]
  | succ f ih =>
    intro l hl
    cases l with
    | nil => simp [divideFuel]
    | cons x xs =>
      simp only [divideFuel, List.flatten_cons]
      rw [ih ((x :: xs).drop n) (by simp only [List.length_drop]; omega)]
      exact List.take_append_drop n (x :: xs)

/-- Every chunk except possibly the last has length exactly `n`. -/
theorem divideFuel_dropLast {α} (n : Nat) :
    ∀ (f : Nat) (l : List α), ∀ c ∈ (divideFuel f l n).dropLast, c.length = n := by
  intro f
  induction f with
  | zero => intro l c hc; simp [divideFuel] at hc
  | succ f ih =>
    intro l c hc
    cases l with
    | nil => simp [divideFuel] at hc
    | cons x xs =>
      simp only [divideFuel] at hc
      cases hr : divideFuel f ((x :: xs).drop n) n with
      | nil => rw [hr] at hc; simp at hc
      | cons d ds =>
        rw [hr] at hc
        rw [List.dropLast_cons₂] at hc
        rcases List.mem_cons.mp hc with h | h
        · subst h
          have hd : (x :: xs).drop n ≠ [] := by
            intro hnil
            rw [hnil, divideFuel_nil] at hr
            exact List.noConfusion hr
          have : n < (x :: xs).length := by
            by_contra hle
            exact hd (List.drop_eq_nil_of_le (Nat.le_of_not_lt hle))
          simp only [List.length_take, List.length_cons] at this ⊢
          omega
        · exact ih ((x :: xs).drop n) c (hr ▸ h)

/-- The number of chunks is `⌈length / n⌉`, given positive chunk size and
enough fuel. -/
theorem divideFuel_length {α} (n : Nat) (hn : 0 < n) :
    ∀ (f : Nat) (l : List α), l.length ≤ f →
      (divideFuel f l n).length = (l.length + n - 1) / n := by
  have key : ∀ L, 1 ≤ L → (L + n - 1) / n = (L - 1) / n + 1 := by
    intro L hL
    have h : L + n - 1 = (L - 1) + n := by omega
    rw [h, Nat.add_div_right _ hn]
  intro f
  induction f with
  | zero =>
    intro l hl
    have : l = [] := List.eq_nil_of_length_eq_zero (Nat.le_zero.mp hl)
    subst this
    simp [divideFuel, Nat.div_eq_of_lt (by omega : n - 1 < n)]
  | succ f ih =>
    intro l hl
    cases l with
    | nil => simp [divideFuel, Nat.div_eq_of_lt (by omega : n - 1 < n)]
    | cons x xs =>
      simp only [divideFuel, List.length_cons]
      rw [ih ((x :: xs).drop n) (by simp only [List.length_drop]; omega)]
      rw [key (xs.length + 1) (by omega)]
      simp only [List.length_drop, List.length_cons, Nat.add_sub_cancel]
      by_cases hcmp : n ≤ xs.length
      · have hnum : xs.length + 1 - n + n - 1 = xs.length := by omega
        rw [hnum]
      · have h0 : xs.length + 1 - n = 0 := by omega
        rw [h0]
        simp only [Nat.zero_add]
        rw [Nat.div_eq_of_lt (by omega : n - 1 < n)]
        rw [Nat.div_eq_of_lt (by omega : xs.length < n)]

/-- Consuming one more page appends that page's items. -/
theorem Seller.accItems_succ (pages : Nat → Seller.Page) (k : Nat) :
    Seller.accItems pages (k + 1) = Seller.accItems pages k ++ (pages k).items := by
  simp [Seller.accItems, List.range_succ]

/-- Consuming one more page appends that page's entries. -/
theorem Market.accEntries_succ (pages : Nat → Market.Page) (k : Nat) :
    Market.accEntries pages (k + 1) = Market.accEntries pages k ++ (pages k).offerMappingEntries := by
  simp [Market.accEntries, List.range_succ]

/-- Run of the Ozon pagination loop: started at page `k` with the items of
pages `0..k-1` accumulated, and with the first stop at page `k0 ≥ k`, fuel
`k0 - k + 1` finishes the loop with the items of pages `0..k0`. -/
theorem Seller.offerLoop_run_seller (pages : Nat → Seller.Page) (k0 : Nat)
    (hstop : Seller.stopsAt pages k0)
    (hmin : ∀ j, j < k0 → ¬ Seller.stopsAt pages j) :
    ∀ (d k : Nat), k + d = k0 →
      Seller.offerLoop pages (d + 1) k (Seller.accItems pages k) =
        some (Seller.accItems pages (k0 + 1)) := by
  intro d
  induction d with
  | zero =>
    intro k hk
    have hk0 : k = k0 := by omega
    subst hk0
    simp only [Seller.offerLoop]
    rw [← Seller.accItems_succ]
    have hstop2 : (pages k).total = (Seller.accItems pages (k + 1)).length := hstop
    rw [if_pos hstop2]
  | succ d ih =>
    intro k hk
    have hlt : k < k0 := by omega
    have hns : ¬ Seller.stopsAt pages k := hmin k hlt
    simp only [Seller.offerLoop]
    rw [← Seller.accItems_succ]
    have hns2 : ¬ (pages k).total = (Seller.accItems pages (k + 1)).length := hns
    rw [if_neg hns2]
    exact ih (k + 1) (by omega)

/-- Run of the Yandex pagination loop, as in `Seller.offerLoop_run_seller`. -/
theorem Market.offerLoop_run_market (pages : Nat → Market.Page) (k0 : Nat)
    (hstop : Market.stopsAt pages k0)
    (hmin : ∀ j, j < k0 → ¬ Market.stopsAt pages j) :
    ∀ (d k : Nat), k + d = k0 →
      Market.offerLoop pages (d + 1) k (Market.accEntries pages k) =
        some (Market.accEntries pages (k0 + 1)) := by
  intro d
  induction d with
  | zero =>
    intro k hk
    have hk0 : k = k0 := by omega
    subst hk0
    simp only [Market.offerLoop]
    rw [← Market.accEntries_succ]
    have hstop2 : (pages k).paging.nextPageToken = "" := hstop
    rw [if_pos hstop2]
  | succ d ih =>
    intro k hk
    have hlt : k < k0 := by omega
    have hns : ¬ Market.stopsAt pages k := hmin k hlt
    simp only [Market.offerLoop]
    rw [← Market.accEntries_succ]
    have hns2 : ¬ (pages k).paging.nextPageToken = "" := hns
    rw [if_neg hns2]
    exact ih (k + 1) (by omega)

/-- `seller.create_prices` characterized: the loop never touches the
identifier list, and it emits exactly one item per inventory record whose
code is in the list, in inventory order. -/
theorem Seller.create_prices_spec_seller (w : List Record) (ids : List String) :
    (Seller.create_prices w ids).2 = ids ∧
    (Seller.create_prices w ids).1 =
      (w.filter (fun r => decide (r.code ∈ ids))).map
        (fun r => ⟨"UNKNOWN", "RUB", r.code, "0", price_conversion r.price⟩) := by
  induction w with
  | nil => exact ⟨rfl, rfl⟩
  | cons r ws ih =>
    by_cases hc : r.code ∈ ids
    · simp only [Seller.create_prices, if_pos hc]
      refine ⟨ih.1, ?_⟩
      rw [ih.2]
      simp [List.filter_cons, hc]
    · simp only [Seller.create_prices, if_neg hc]
      refine ⟨ih.1, ?_⟩
      rw [ih.2]
      simp [List.filter_cons, hc]

/-- `market.create_prices` characterized: when it completes (every matched
price has a digit before the first dot), the identifier list is returned
unchanged and the payload holds exactly one item per inventory record whose
code is in the list, in inventory order. -/
theorem Market.create_prices_spec_market (w : List Record) :
    ∀ (ids : List String) (ps : List Market.PriceItem) (rest : List String),
      Market.create_prices w ids = some (ps, rest) →
      rest = ids ∧
      ps = (w.filter (fun r => decide (r.code ∈ ids))).map
        (fun r => ⟨r.code, ⟨(pyInt (price_conversion r.price)).getD 0, "RUR"⟩⟩) := by
  induction w with
  | nil =>
    intro ids ps rest h
    simp only [Market.create_prices, Option.some.injEq, Prod.mk.injEq] at h
    obtain ⟨h1, h2⟩ := h
    exact ⟨h2.symm, by simp [h1.symm]⟩
  | cons r ws ih =>
    intro ids ps rest h
    simp only [Market.create_prices] at h
    by_cases hc : r.code ∈ ids
    · rw [if_pos hc] at h
      cases hv : pyInt (price_conversion r.price) with
      | none => rw [hv] at h; simp at h
      | some v =>
        rw [hv] at h
        cases hrec : Market.create_prices ws ids with
        | none => rw [hrec] at h; simp at h
        | some p =>
          obtain ⟨ps2, rest2⟩ := p
          rw [hrec] at h
          simp only [Option.map_some', Option.some.injEq, Prod.mk.injEq] at h
          obtain ⟨h1, h2⟩ := h
          obtain ⟨hr1, hr2⟩ := ih ids ps2 rest2 hrec
          subst h1; subst h2
          refine ⟨hr1, ?_⟩
          rw [hr2]
          simp [List.filter_cons, hc, hv]
    · rw [if_neg hc] at h
      obtain ⟨hr1, hr2⟩ := ih ids ps rest h
      refine ⟨hr1, ?_⟩
      rw [hr2]
      simp [List.filter_cons, hc]

/-- C1 (amended): whenever the stock transform completes, in both
marketplace variants, the payload length equals the original
identifier-list length, the emitted identifiers are a permutation of the
original list (so each identifier appears as often as it did originally,
and exactly once when the list is duplicate-free), and the payload is the
matched items in inventory order followed by zero-stock items for the
leftover identifiers in their original order. -/
theorem claim1_stock_payload_structure (w : List Record) (ids : List String)
    (wh date : String) :
    (∀ S rest, Seller.create_stocks w ids = some (S, rest) →
      S.length = ids.length ∧
      (S.map Seller.StockItem.offer_id).Perm ids ∧
      (ids.Nodup → ∀ x ∈ ids, (S.map Seller.StockItem.offer_id).count x = 1) ∧
      ∃ ms, S = ms ++ rest.map (fun i => (⟨i, 0⟩ : Seller.StockItem)) ∧
        (ms.map Seller.StockItem.offer_id).Sublist (w.map Record.code) ∧
        rest.Sublist ids) ∧
    (∀ S rest, Market.create_stocks w ids wh date = some (S, rest) →
      S.length = ids.length ∧
      (S.map Market.StockItem.sku).Perm ids ∧
      (ids.Nodup → ∀ x ∈ ids, (S.map Market.StockItem.sku).count x = 1) ∧
      ∃ ms, S = ms ++ rest.map (fun i => (⟨i, wh, [⟨0, "FIT", date⟩]⟩ : Market.StockItem)) ∧
        (ms.map Market.StockItem.sku).Sublist (w.map Record.code) ∧
        rest.Sublist ids) := by
  constructor
  · intro S rest h
    obtain ⟨ms, hloop, hS⟩ := Seller.create_stocks_cases_seller w ids S rest h
    obtain ⟨hperm, hsub, hcodes, hlen, -, -⟩ := Seller.stocksLoop_spec_seller w ids ms rest hloop
    have hmapz : ∀ l : List String,
        (l.map (fun i => (⟨i, 0⟩ : Seller.StockItem))).map Seller.StockItem.offer_id = l := by
      intro l
      induction l with
      | nil => rfl
      | cons a t iht => simp only [List.map_cons, iht]
    have hmap : S.map Seller.StockItem.offer_id = ms.map Seller.StockItem.offer_id ++ rest := by
      subst hS
      rw [List.map_append, hmapz]
    have hpermS : (S.map Seller.StockItem.offer_id).Perm ids := hmap ▸ hperm
    refine ⟨?_, hpermS, ?_, ms, hS, hcodes, hsub⟩
    · subst hS
      simp only [List.length_append, List.length_map]
      omega
    · intro hnd x hx
      rw [hpermS.count_eq]
      exact List.count_eq_one_of_mem hnd hx
  · intro S rest h
    obtain ⟨ms, hloop, hS⟩ := Market.create_stocks_cases_market w ids wh date S rest h
    obtain ⟨hperm, hsub, hcodes, hlen, -, -⟩ := Market.stocksLoop_spec_market wh date w ids ms rest hloop
    have hmapz : ∀ l : List String,
        (l.map (fun i => (⟨i, wh, [⟨0, "FIT", date⟩]⟩ : Market.StockItem))).map
          Market.StockItem.sku = l := by
      intro l
      induction l with
      | nil => rfl
      | cons a t iht => simp only [List.map_cons, iht]
    have hmap : S.map Market.StockItem.sku = ms.map Market.StockItem.sku ++ rest := by
      subst hS
      rw [List.map_append, hmapz]
    have hpermS : (S.map Market.StockItem.sku).Perm ids := hmap ▸ hperm
    refine ⟨?_, hpermS, ?_, ms, hS, hcodes, hsub⟩
    · subst hS
      simp only [List.length_append, List.length_map]
      omega
    · intro hnd x hx
      rw [hpermS.count_eq]
      exact List.count_eq_one_of_mem hnd hx

/-- C1 counterexample: on the duplicate identifier list `["A", "A"]` with
an empty inventory, the returned payload carries the identifier `"A"`
twice, refuting "every identifier of the original list appears exactly
once" as universally stated. -/
theorem claim1_duplicate_identifier_counterexample :
    (Seller.create_stocks [] ["A", "A"]).map
        (fun r => (r.1.map Seller.StockItem.offer_id).count "A") = some 2 ∧
    (2 : Nat) ≠ 1 := by
  exact ⟨by decide, by decide⟩

/-- C1 witness: the spec's own example — identifiers `["A","B","C"]`,
inventory `A → ">10"`, `B → "1"` — instantiating the amended theorem. -/
theorem claim1_stock_payload_structure_witness :
    Seller.create_stocks [⟨"A", ">10", "100.00"⟩, ⟨"B", "1", "50.00"⟩] ["A", "B", "C"] =
      some ([⟨"A", 100⟩, ⟨"B", 0⟩, ⟨"C", 0⟩], ["C"]) ∧
    ([⟨"A", 100⟩, ⟨"B", 0⟩, ⟨"C", 0⟩] : List Seller.StockItem).length =
      (["A", "B", "C"] : List String).length ∧
    (([⟨"A", 100⟩, ⟨"B", 0⟩, ⟨"C", 0⟩] : List Seller.StockItem).map
        Seller.StockItem.offer_id).Perm ["A", "B", "C"] := by
  have h :=
    (claim1_stock_payload_structure [⟨"A", ">10", "100.00"⟩, ⟨"B", "1", "50.00"⟩]
        ["A", "B", "C"] "wh" "date").1
      [⟨"A", 100⟩, ⟨"B", 0⟩, ⟨"C", 0⟩] ["C"] (by decide)
  exact ⟨by decide, h.1, h.2.1⟩

/-- C2: the quantity rule (`">10"` to 100, `"1"` to 0, otherwise `int()`)
and, in both variants, processing a record whose code is in the identifier
list emits the item first and recurses on the list with that code removed,
so later records see the shrunk list. -/
theorem claim2_quantity_rule_and_removal (r : Record) (ws : List Record)
    (ids : List String) (wh date : String) (hmem : r.code ∈ ids) :
    stockOfCount ">10" = some 100 ∧
    stockOfCount "1" = some 0 ∧
    (∀ q, q ≠ ">10" → q ≠ "1" → stockOfCount q = pyInt q) ∧
    (∀ st, stockOfCount r.quantity = some st →
      Seller.stocksLoop (r :: ws) ids =
        (Seller.stocksLoop ws (ids.erase r.code)).map
          (fun p => (⟨r.code, st⟩ :: p.1, p.2)) ∧
      Market.stocksLoop wh date (r :: ws) ids =
        (Market.stocksLoop wh date ws (ids.erase r.code)).map
          (fun p => (⟨r.code, wh, [⟨st, "FIT", date⟩]⟩ :: p.1, p.2))) := by
  refine ⟨rfl, rfl, ?_, ?_⟩
  · intro q h1 h2
    simp [stockOfCount, h1, h2]
  · intro st hst
    constructor
    · simp only [Seller.stocksLoop, if_pos hmem, hst]
    · simp only [Market.stocksLoop, if_pos hmem, hst]

/-- C2 witness: record `A` with numeric quantity `"7"` against identifiers
`["A", "B"]`. -/
theorem claim2_quantity_rule_and_removal_witness :
    ("A" : String) ∈ (["A", "B"] : List String) ∧
    stockOfCount ">10" = some 100 ∧
    stockOfCount "1" = some 0 ∧
    Seller.stocksLoop [⟨"A", "7", "1.00"⟩] ["A", "B"] =
      (Seller.stocksLoop [] ((["A", "B"] : List String).erase "A")).map
        (fun p => (⟨"A", 7⟩ :: p.1, p.2)) ∧
    Market.stocksLoop "wh" "d" [⟨"A", "7", "1.00"⟩] ["A", "B"] =
      (Market.stocksLoop "wh" "d" [] ((["A", "B"] : List String).erase "A")).map
        (fun p => (⟨"A", "wh", [⟨7, "FIT", "d"⟩]⟩ :: p.1, p.2)) := by
  have h := claim2_quantity_rule_and_removal ⟨"A", "7", "1.00"⟩ [] ["A", "B"]
    "wh" "d" (by decide)
  have h2 := h.2.2.2 7 (by decide)
  exact ⟨by decide, h.1, h.2.1, h2.1, h2.2⟩

/-- C7 (amended): after the stock transform returns, the identifier list
is not emptied in general: it holds exactly the leftover identifiers, in
their original order — an identifier has left the list only if some
inventory record carries its code, and every identifier matching no record
is still there. Both variants. -/
theorem claim7_leftover_identifiers_remain (w : List Record) (ids : List String)
    (wh date : String) :
    (∀ S rest, Seller.create_stocks w ids = some (S, rest) →
      rest.Sublist ids ∧
      (∀ x ∈ ids, x ∉ rest → x ∈ w.map Record.code) ∧
      (∀ x ∈ ids, x ∉ w.map Record.code → x ∈ rest)) ∧
    (∀ S rest, Market.create_stocks w ids wh date = some (S, rest) →
      rest.Sublist ids ∧
      (∀ x ∈ ids, x ∉ rest → x ∈ w.map Record.code) ∧
      (∀ x ∈ ids, x ∉ w.map Record.code → x ∈ rest)) := by
  constructor
  · intro S rest h
    obtain ⟨ms, hloop, -⟩ := Seller.create_stocks_cases_seller w ids S rest h
    obtain ⟨-, hsub, -, -, hrem, hkeep⟩ := Seller.stocksLoop_spec_seller w ids ms rest hloop
    exact ⟨hsub, hrem, hkeep⟩
  · intro S rest h
    obtain ⟨ms, hloop, -⟩ := Market.create_stocks_cases_market w ids wh date S rest h
    obtain ⟨-, hsub, -, -, hrem, hkeep⟩ := Market.stocksLoop_spec_market wh date w ids ms rest hloop
    exact ⟨hsub, hrem, hkeep⟩

/-- C7 counterexample: with identifier list `["A"]` and an empty
inventory, `create_stocks` returns and the identifier list still holds
`"A"` — it has not been emptied, refuting "no identifier remains in it". -/
theorem claim7_not_emptied_counterexample :
    Seller.create_stocks [] ["A"] = some ([⟨"A", 0⟩], ["A"]) ∧
    (["A"] : List String) ≠ [] := by
  exact ⟨by decide, by decide⟩

/-- C7 witness: inventory matching `"A"` out of `["A", "B"]`; the amended
theorem instantiated there. -/
theorem claim7_leftover_identifiers_remain_witness :
    Seller.create_stocks [⟨"A", ">10", "1.00"⟩] ["A", "B"] =
      some ([⟨"A", 100⟩, ⟨"B", 0⟩], ["B"]) ∧
    (["B"] : List String).Sublist ["A", "B"] ∧
    (∀ x ∈ (["A", "B"] : List String), x ∉ (["B"] : List String) →
      x ∈ ([⟨"A", ">10", "1.00"⟩] : List Record).map Record.code) ∧
    (∀ x ∈ (["A", "B"] : List String),
      x ∉ ([⟨"A", ">10", "1.00"⟩] : List Record).map Record.code →
      x ∈ (["B"] : List String)) := by
  have h := (claim7_leftover_identifiers_remain [⟨"A", ">10", "1.00"⟩]
      ["A", "B"] "wh" "date").1
    [⟨"A", 100⟩, ⟨"B", 0⟩] ["B"] (by decide)
  exact ⟨by decide, h.1, h.2.1, h.2.2⟩

/-- C3: for every list and positive chunk size, the chunker succeeds and
concatenating its chunks reconstructs the list exactly, every chunk except
possibly the last has length exactly `n`, and the chunk count is
`⌈length / n⌉`. -/
theorem claim3_divide_reconstruction {α} (lst : List α) (n : Int) (hn : 0 < n) :
    ∃ cs, divide lst n = some cs ∧
      cs.flatten = lst ∧
      (∀ c ∈ cs.dropLast, c.length = n.toNat) ∧
      cs.length = (lst.length + n.toNat - 1) / n.toNat := by
  have hnz : ¬ n = 0 := by omega
  have hneg : ¬ n < 0 := by omega
  have htn : 0 < n.toNat := by omega
  refine ⟨divideFuel lst.length lst n.toNat, ?_, ?_, ?_, ?_⟩
  · simp [divide, hnz, hneg]
  · exact divideFuel_flatten n.toNat htn lst.length lst (Nat.le_refl _)
  · exact divideFuel_dropLast n.toNat lst.length lst
  · exact divideFuel_length n.toNat htn lst.length lst (Nat.le_refl _)

/-- C3 witness: `[1,2,3,4,5]` with chunk size 2 gives `[[1,2],[3,4],[5]]`. -/
theorem claim3_divide_reconstruction_witness :
    (0 : Int) < 2 ∧
    divide [1, 2, 3, 4, 5] (2 : Int) = some [[1, 2], [3, 4], [5]] ∧
    (∃ cs, divide [1, 2, 3, 4, 5] (2 : Int) = some cs ∧
      cs.flatten = [1, 2, 3, 4, 5] ∧
      (∀ c ∈ cs.dropLast, c.length = (2 : Int).toNat) ∧
      cs.length = (([1, 2, 3, 4, 5] : List Nat).length + (2 : Int).toNat - 1) / (2 : Int).toNat) := by
  exact ⟨by decide, by decide,
    claim3_divide_reconstruction [1, 2, 3, 4, 5] 2 (by decide)⟩

/-- C4: the price normalizer agrees with the spec's algorithm on every
input, and matches all four spec examples (truncation, not rounding; empty
result when no digit precedes the first dot). -/
theorem claim4_price_conversion (s : String) :
    price_conversion s = normalizeSpec s ∧
    price_conversion "5'990.00 руб." = "5990" ∧
    price_conversion "100.00" = "100" ∧
    price_conversion "0.99" = "0" ∧
    price_conversion "abc.00" = "" := by
  refine ⟨?_, by decide, by decide, by decide, by decide⟩
  unfold price_conversion normalizeSpec reSubNonDigit
  have hsplit : ∀ cs : List Char, pySplitDotHead cs = cs.takeWhile (fun c => c != '.') := by
    intro cs
    induction cs with
    | nil => rfl
    | cons c cs ih =>
      by_cases h : c = '.'
      · subst h
        simp [pySplitDotHead, List.takeWhile_cons]
      · simp [pySplitDotHead, List.takeWhile_cons, h, ih]
  rw [hsplit]
  congr 1

/-- C8 (amended): for `n = 0` the chunker fails fast with an error (the
`range` step of zero raises; no infinite loop, no division by zero); but
for `n < 0` it does not error: it terminates immediately yielding no
chunks, silently dropping every element of a nonempty list. -/
theorem claim8_divide_nonpositive {α} (lst : List α) (n : Int) :
    (n = 0 → divide lst n = none) ∧
    (n < 0 → divide lst n = some []) := by
  constructor
  · intro h
    simp [divide, h]
  · intro h
    have hnz : ¬ n = 0 := by omega
    simp [divide, hnz, h]

/-- C8 counterexample: `divide([1], -1)` raises no error and produces no
chunks — the element 1 is silently dropped, refuting "fails fast with an
error ... nor silently produces an output that drops elements" for
negative `n`. -/
theorem claim8_negative_step_counterexample :
    divide [(1 : Nat)] (-1) = some [] ∧
    ([] : List (List Nat)).flatten ≠ [(1 : Nat)] := by
  exact ⟨by decide, by decide⟩

/-- C8 witness: the amended theorem instantiated at `n = 0` and `n = -1`
on the list `[1]`. -/
theorem claim8_divide_nonpositive_witness :
    divide [(1 : Nat)] 0 = none ∧ divide [(1 : Nat)] (-1) = some [] := by
  exact ⟨(claim8_divide_nonpositive [(1 : Nat)] 0).1 rfl,
    (claim8_divide_nonpositive [(1 : Nat)] (-1)).2 (by decide)⟩

/-- C5: in both variants the price transform leaves the identifier list
unchanged and emits exactly one price item per inventory record whose code
is in the identifier list, in inventory order (so records with unknown
codes, and identifiers without a record, contribute nothing). -/
theorem claim5_price_transform (w : List Record) (ids : List String) :
    ((Seller.create_prices w ids).2 = ids ∧
     (Seller.create_prices w ids).1.map Seller.PriceItem.offer_id =
       (w.filter (fun r => decide (r.code ∈ ids))).map Record.code) ∧
    (∀ ps rest, Market.create_prices w ids = some (ps, rest) →
      rest = ids ∧
      ps.map Market.PriceItem.id =
        (w.filter (fun r => decide (r.code ∈ ids))).map Record.code) := by
  constructor
  · obtain ⟨h1, h2⟩ := Seller.create_prices_spec_seller w ids
    refine ⟨h1, ?_⟩
    rw [h2, List.map_map]
    rfl
  · intro ps rest h
    obtain ⟨h1, h2⟩ := Market.create_prices_spec_market w ids ps rest h
    refine ⟨h1, ?_⟩
    rw [h2, List.map_map]
    rfl

/-- C5 witness: the spec's own example — identifiers `["A","C"]`,
inventory records `A` and `B`; only `A`'s price entry is emitted. -/
theorem claim5_price_transform_witness :
    Market.create_prices [⟨"A", "1", "100.00"⟩, ⟨"B", "1", "50.00"⟩] ["A", "C"] =
      some ([⟨"A", ⟨100, "RUR"⟩⟩], ["A", "C"]) ∧
    (Seller.create_prices [⟨"A", "1", "100.00"⟩, ⟨"B", "1", "50.00"⟩] ["A", "C"]).2 =
      ["A", "C"] ∧
    (Seller.create_prices [⟨"A", "1", "100.00"⟩, ⟨"B", "1", "50.00"⟩]
        ["A", "C"]).1.map Seller.PriceItem.offer_id =
      (([⟨"A", "1", "100.00"⟩, ⟨"B", "1", "50.00"⟩] : List Record).filter
        (fun r => decide (r.code ∈ (["A", "C"] : List String)))).map Record.code ∧
    ([⟨"A", ⟨100, "RUR"⟩⟩] : List Market.PriceItem).map Market.PriceItem.id =
      (([⟨"A", "1", "100.00"⟩, ⟨"B", "1", "50.00"⟩] : List Record).filter
        (fun r => decide (r.code ∈ (["A", "C"] : List String)))).map Record.code := by
  have h := claim5_price_transform [⟨"A", "1", "100.00"⟩, ⟨"B", "1", "50.00"⟩] ["A", "C"]
  have hm := h.2 [⟨"A", ⟨100, "RUR"⟩⟩] ["A", "C"] (by decide)
  exact ⟨by decide, h.1.1, h.1.2, hm.2⟩

/-- C6: whenever the marketplace's termination signal eventually occurs
(first at page `kS` for Ozon — accumulated count reaches the page's
reported total — and first at page `kM` for Yandex — empty next-page
token), the identifier resolver terminates after fetching exactly those
pages, returning every accumulated item's identifier in page order. -/
theorem claim6_get_offer_ids_terminates (pagesS : Nat → Seller.Page)
    (pagesM : Nat → Market.Page) (kS kM : Nat)
    (hS : Seller.stopsAt pagesS kS)
    (hSmin : ∀ j, j < kS → ¬ Seller.stopsAt pagesS j)
    (hM : Market.stopsAt pagesM kM)
    (hMmin : ∀ j, j < kM → ¬ Market.stopsAt pagesM j) :
    Seller.get_offer_ids pagesS (kS + 1) =
      some ((Seller.accItems pagesS (kS + 1)).map Seller.Product.offer_id) ∧
    Market.get_offer_ids pagesM (kM + 1) =
      some ((Market.accEntries pagesM (kM + 1)).map (fun e => e.offer.shopSku)) := by
  constructor
  · have h0 : Seller.accItems pagesS 0 = [] := by simp [Seller.accItems]
    have hrun := Seller.offerLoop_run_seller pagesS kS hS hSmin kS 0 (by omega)
    rw [h0] at hrun
    unfold Seller.get_offer_ids
    rw [hrun]
    rfl
  · have h0 : Market.accEntries pagesM 0 = [] := by simp [Market.accEntries]
    have hrun := Market.offerLoop_run_market pagesM kM hM hMmin kM 0 (by omega)
    rw [h0] at hrun
    unfold Market.get_offer_ids
    rw [hrun]
    rfl

/-- C6 witness: on the two-page example streams the resolvers stop after
the second page and return the identifiers of `x, y, z`. -/
theorem claim6_get_offer_ids_terminates_witness :
    Seller.get_offer_ids pagesSellerW 2 = some ["x", "y", "z"] ∧
    Market.get_offer_ids pagesMarketW 2 = some ["x", "y", "z"] := by
  obtain ⟨h1, h2⟩ := claim6_get_offer_ids_terminates pagesSellerW pagesMarketW 1 1
    (by decide) (by decide) (by decide) (by decide)
  constructor
  · rw [h1]; decide
  · rw [h2]; decide

/-- C9: in both variants, once identifiers resolve and the stock payload
builds, `upload_stocks` returns the whole payload as its second component
and, as its first, exactly the sublist of it (same order) whose items have
non-zero stock quantity. -/
theorem claim9_upload_stocks_partition (w : List Record)
    (pagesS : Nat → Seller.Page) (pagesM : Nat → Market.Page)
    (fuelS fuelM : Nat) (idsS idsM : List String) (wh date : String)
    (hgS : Seller.get_offer_ids pagesS fuelS = some idsS)
    (hgM : Market.get_offer_ids pagesM fuelM = some idsM) :
    (∀ S rest, Seller.create_stocks w idsS = some (S, rest) →
      Seller.upload_stocks w pagesS fuelS =
        some (S.filter (fun s => s.stock != 0), S) ∧
      (S.filter (fun s => s.stock != 0)).Sublist S ∧
      (∀ x, x ∈ S.filter (fun s => s.stock != 0) ↔ x ∈ S ∧ x.stock ≠ 0)) ∧
    (∀ S rest, Market.create_stocks w idsM wh date = some (S, rest) →
      Market.upload_stocks w pagesM fuelM wh date =
        some (S.filter (fun s => s.items.headI.count != 0), S) ∧
      (S.filter (fun s => s.items.headI.count != 0)).Sublist S ∧
      (∀ x, x ∈ S.filter (fun s => s.items.headI.count != 0) ↔
        x ∈ S ∧ x.items.headI.count ≠ 0)) := by
  constructor
  · intro S rest h
    refine ⟨?_, List.filter_sublist _, ?_⟩
    · unfold Seller.upload_stocks
      rw [hgS, Option.some_bind, h]
      rfl
    · intro x
      simp [List.mem_filter]
  · intro S rest h
    refine ⟨?_, List.filter_sublist _, ?_⟩
    · unfold Market.upload_stocks
      rw [hgM, Option.some_bind, h]
      rfl
    · intro x
      simp [List.mem_filter]

/-- C9 witness: empty inventory against the one-page streams; the payload
is one zero-stock item, so the non-zero partition is empty. -/
theorem claim9_upload_stocks_partition_witness :
    Seller.upload_stocks [] pagesSellerOne 1 = some ([], [⟨"A", 0⟩]) ∧
    Market.upload_stocks [] pagesMarketOne 1 "wh" "d" =
      some ([], [⟨"A", "wh", [⟨0, "FIT", "d"⟩]⟩]) := by
  have h := claim9_upload_stocks_partition [] pagesSellerOne pagesMarketOne 1 1
    ["A"] ["A"] "wh" "d" (by decide) (by decide)
  have hs := (h.1 [⟨"A", 0⟩] ["A"] (by decide)).1
  have hm := (h.2 [⟨"A", "wh", [⟨0, "FIT", "d"⟩]⟩] ["A"] (by decide)).1
  constructor
  · rw [hs]; decide
  · rw [hm]; decide

/-- C10: an inventory record whose code is known but whose price string
has no digit before the first dot makes the two price transforms diverge:
the Yandex variant raises (`int("")`), the Ozon variant returns normally
with an empty price field. -/
theorem claim10_price_divergence (r : Record) (ids : List String)
    (hmem : r.code ∈ ids) (hempty : price_conversion r.price = "") :
    Market.create_prices [r] ids = none ∧
    (Seller.create_prices [r] ids).1 =
      [⟨"UNKNOWN", "RUB", r.code, "0", ""⟩] := by
  have hnone : pyInt "" = none := by decide
  constructor
  · simp only [Market.create_prices, if_pos hmem, hempty, hnone]
  · simp only [Seller.create_prices, if_pos hmem, hempty]

/-- C10 witness: record `A` with price `"abc.00"` against identifiers
`["A"]`. -/
theorem claim10_price_divergence_witness :
    Market.create_prices [⟨"A", "5", "abc.00"⟩] ["A"] = none ∧
    (Seller.create_prices [⟨"A", "5", "abc.00"⟩] ["A"]).1 =
      [⟨"UNKNOWN", "RUB", "A", "0", ""⟩] := by
  exact claim10_price_divergence ⟨"A", "5", "abc.00"⟩ ["A"] (by decide) (by decide)
